import Mathlib

/-!
# Verification of `TimeSeries` (src/src/timeseries.rs)

Shallow embedding of the `TimeSeries` iterator of the hifitime repository:
a generator of evenly spaced `Epoch`s between `start` and `end`, with
inclusive or exclusive upper boundary, forward (`next`) and backward
(`next_back`) stepping, and a floating-point based `len`/`size_hint`.

The `Epoch` and `Duration` types are code of the repository that is not
under `src/` (the spec lists them as opaque external primitives), so they
are modelled from the spec: totally ordered instants and signed spans with
exact fixed-precision arithmetic, represented as integer nanosecond counts;
`in_seconds` converts a span to a signed seconds value, modelled as an
exact rational (the IEEE-754 rounding of the real code is elided).
-/

namespace Hifitime

/-- Modelled from the spec: the opaque, totally-ordered time instant type
`Epoch` of the repository (not under `src/`), represented as an integer
count of nanosecond ticks.  It supports addition and subtraction with
`Duration`, and subtraction of two instants yields a `Duration`. -/
abbrev Epoch := Int

/-- Modelled from the spec: the opaque signed time-span type `Duration`
of the repository (not under `src/`), represented as an integer count of
nanosecond ticks; exact within the type's fixed precision. -/
abbrev Duration := Int

/-- Modelled from the spec: `Duration.in_seconds() -> f64`, "a duration
converts to a signed seconds value".  A tick is a nanosecond, so the
seconds value is the tick count divided by `10^9`, here as an exact
rational (the spec leaves the IEEE-754 rounding of the real `f64`
conversion unspecified). -/
def Duration.in_seconds (d : Duration) : ℚ :=
  (d : ℚ) / 1000000000

/-- The struct `TimeSeries` of `src/src/timeseries.rs`: immutable bounds
`start`/`end`, the fixed `step`, the mutable cursor `cur`, and the
end-inclusivity flag `incl`. -/
structure TimeSeries where
  start : Epoch
  «end» : Epoch
  step : Duration
  cur : Epoch
  incl : Bool
  deriving DecidableEq, Repr

namespace TimeSeries

/-- `TimeSeries::exclusive(start, end, step)`: start-inclusive,
end-exclusive series; the cursor starts one step prior to `start`. -/
def exclusive (start «end» : Epoch) (step : Duration) : TimeSeries :=
  { start := start
    «end» := «end»
    step := step
    cur := start - step
    incl := false }

/-- `TimeSeries::inclusive(start, end, step)`: start- and end-inclusive
series; the cursor starts one step prior to `start`. -/
def inclusive (start «end» : Epoch) (step : Duration) : TimeSeries :=
  { start := start
    «end» := «end»
    step := step
    cur := start - step
    incl := true }

/-- `Iterator::next` for `TimeSeries` (`&mut self` is modelled by
returning the produced item together with the successor state):
the candidate is `cur + step`; the series ends when the candidate
reaches the boundary (`>= end` exclusive, `> end` inclusive), leaving
the state untouched; otherwise the cursor advances to the candidate and
the candidate is produced. -/
def next (ts : TimeSeries) : Option Epoch × TimeSeries :=
  let next_item := ts.cur + ts.step
  if (!ts.incl && decide (next_item ≥ ts.«end»)) ||
      (ts.incl && decide (next_item > ts.«end»)) then
    (none, ts)
  else
    (some next_item, { ts with cur := next_item })

/-- `DoubleEndedIterator::next_back` for `TimeSeries`: the candidate is
`cur - step`; `None` when the candidate is below `start`, otherwise the
candidate is produced.  The source never assigns to `self`, so the state
component is the unchanged input state in both branches. -/
def nextBack (ts : TimeSeries) : Option Epoch × TimeSeries :=
  let next_item := ts.cur - ts.step
  if next_item < ts.start then
    (none, ts)
  else
    (some next_item, ts)

/-- The exact value of the Rust expression `usize::MAX as f64`: the cast
rounds `2^64 - 1` to the nearest representable `f64`, which is `2^64`. -/
def usizeMaxAsF64 : ℚ := 18446744073709551616

/-- `usize::MAX` on a 64-bit platform. -/
def usizeMax : Nat := 18446744073709551615

/-- `ExactSizeIterator::len` for `TimeSeries`:
`approx = abs((end - start).in_seconds() / step.in_seconds())`, then
`ceil` (inclusive) or `floor` (exclusive), clamped at `usize::MAX` when
the rounded value reaches `usize::MAX as f64`.  The `f64` arithmetic of
the source is modelled exactly over `ℚ`. -/
def len (ts : TimeSeries) : Nat :=
  let approx : ℚ :=
    |Duration.in_seconds (ts.«end» - ts.start) / Duration.in_seconds ts.step|
  if ts.incl then
    if (⌈approx⌉ : ℚ) ≥ usizeMaxAsF64 then usizeMax else ⌈approx⌉.toNat
  else
    if (⌊approx⌋ : ℚ) ≥ usizeMaxAsF64 then usizeMax else ⌊approx⌋.toNat

/-- `Iterator::size_hint` for `TimeSeries`: `(self.len(), Some(self.len() + 1))`. -/
def sizeHint (ts : TimeSeries) : Nat × Option Nat :=
  (ts.len, some (ts.len + 1))

/-- The state after `n` successive calls to `next` (each call keeps the
successor state and discards the produced item). -/
def advance : Nat → TimeSeries → TimeSeries
  | 0, ts => ts
  | n + 1, ts => advance n ts.next.2

/-- The list of items produced by calling `next` until it returns `None`,
cut off after `fuel` calls (forward iteration need not terminate for a
step of the wrong sign, so exhaustive traversal is modelled with fuel). -/
def takeAll : Nat → TimeSeries → List Epoch
  | 0, _ => []
  | fuel + 1, ts =>
    match ts.next with
    | (none, _) => []
    | (some e, ts') => e :: takeAll fuel ts'

/-! ## Inversion and preservation lemmas for one forward step -/

/-- Characterization of `next` with the source's boolean guard re-expressed
as a proposition; the two disjuncts are the exclusive and inclusive
termination tests. -/
theorem next_def (ts : TimeSeries) :
    ts.next =
      if (ts.incl = false ∧ ts.«end» ≤ ts.cur + ts.step) ∨
          (ts.incl = true ∧ ts.«end» < ts.cur + ts.step) then
        (none, ts)
      else
        (some (ts.cur + ts.step), { ts with cur := ts.cur + ts.step }) := by
  unfold next
  cases hi : ts.incl
  · by_cases hle : ts.«end» ≤ ts.cur + ts.step <;> simp [hle]
  · by_cases hlt : ts.«end» < ts.cur + ts.step <;> simp [hlt]

theorem next_some_inv {ts ts' : TimeSeries} {e : Epoch}
    (h : ts.next = (some e, ts')) :
    e = ts.cur + ts.step ∧ ts' = { ts with cur := e } ∧
      (ts.incl = false → e < ts.«end») ∧ (ts.incl = true → e ≤ ts.«end») := by
  rw [next_def] at h
  split at h
  · exact absurd h (by simp)
  · rename_i hguard
    push_neg at hguard
    simp only [Prod.mk.injEq, Option.some.injEq] at h
    obtain ⟨he, hts'⟩ := h
    subst he
    exact ⟨rfl, hts'.symm, hguard.1, hguard.2⟩

theorem next_none_inv {ts ts' : TimeSeries}
    (h : ts.next = (none, ts')) :
    ts' = ts ∧
      (ts.incl = false → ts.«end» ≤ ts.cur + ts.step) ∧
      (ts.incl = true → ts.«end» < ts.cur + ts.step) := by
  rw [next_def] at h
  split at h
  · rename_i hguard
    simp only [Prod.mk.injEq, true_and] at h
    refine ⟨h.symm, fun hi => ?_, fun hi => ?_⟩
    · rcases hguard with ⟨_, hle⟩ | ⟨hski, _⟩
      · exact hle
      · rw [hi] at hski; exact absurd hski (by simp)
    · rcases hguard with ⟨hski, _⟩ | ⟨_, hlt⟩
      · rw [hi] at hski; exact absurd hski (by simp)
      · exact hlt
  · exact absurd h (by simp)

theorem next_excl_lt {ts : TimeSeries} (hi : ts.incl = false)
    (hlt : ts.cur + ts.step < ts.«end») :
    ts.next = (some (ts.cur + ts.step), { ts with cur := ts.cur + ts.step }) := by
  rw [next_def, if_neg]
  rintro (⟨_, hle⟩ | ⟨hski, _⟩)
  · exact absurd hle (not_le.mpr hlt)
  · rw [hi] at hski; exact absurd hski (by simp)

theorem next_excl_stop {ts : TimeSeries} (hi : ts.incl = false)
    (hge : ts.«end» ≤ ts.cur + ts.step) :
    ts.next = (none, ts) := by
  rw [next_def, if_pos (Or.inl ⟨hi, hge⟩)]

theorem next_incl_le {ts : TimeSeries} (hi : ts.incl = true)
    (hle : ts.cur + ts.step ≤ ts.«end») :
    ts.next = (some (ts.cur + ts.step), { ts with cur := ts.cur + ts.step }) := by
  rw [next_def, if_neg]
  rintro (⟨hski, _⟩ | ⟨_, hlt⟩)
  · rw [hi] at hski; exact absurd hski (by simp)
  · exact absurd hlt (not_lt.mpr hle)

theorem next_incl_stop {ts : TimeSeries} (hi : ts.incl = true)
    (hgt : ts.«end» < ts.cur + ts.step) :
    ts.next = (none, ts) := by
  rw [next_def, if_pos (Or.inr ⟨hi, hgt⟩)]

/-- The successor state keeps `start`, `end`, `step` and `incl`:
`next` mutates the cursor at most. -/
theorem next_preserves (ts : TimeSeries) :
    ts.next.2.start = ts.start ∧ ts.next.2.«end» = ts.«end» ∧
      ts.next.2.step = ts.step ∧ ts.next.2.incl = ts.incl := by
  rw [next_def]
  split <;> simp

/-- Once `next` answers `none`, the state component is untouched. -/
theorem next_none_fix {ts : TimeSeries} (h : ts.next.1 = none) :
    ts.next.2 = ts := by
  rcases hn : ts.next with ⟨o, ts'⟩
  rw [hn] at h
  cases o with
  | none => exact (next_none_inv hn).1
  | some e => exact absurd h (by simp)

/-- Once `next` answers `none`, iterating `next` any number of times
leaves the state untouched. -/
theorem advance_of_next_none {ts : TimeSeries} (h : ts.next.1 = none) :
    ∀ n : Nat, advance n ts = ts := by
  intro n
  induction n with
  | zero => rfl
  | succ n ih =>
    show advance n ts.next.2 = ts
    rw [next_none_fix h]
    exact ih

/-- After `n` calls the cursor has moved by exactly one `step` per
produced item: the drift-free affine invariant of the forward cursor. -/
theorem advance_cur_takeAll (st : Duration) :
    ∀ (n : Nat) (ts : TimeSeries), ts.step = st →
      (advance n ts).cur = ts.cur + ((ts.takeAll n).length : Int) * st := by
  intro n
  induction n with
  | zero =>
    intro ts _
    simp [advance, takeAll]
  | succ n ih =>
    intro ts hstep
    rcases hn : ts.next with ⟨o, ts'⟩
    cases o with
    | none =>
      have h1 : ts.next.1 = none := by rw [hn]
      have hadv : advance (n + 1) ts = ts := advance_of_next_none h1 (n + 1)
      have htake : ts.takeAll (n + 1) = [] := by
        show (match ts.next with
          | (none, _) => []
          | (some e, ts') => e :: takeAll n ts') = []
        rw [hn]
      rw [hadv, htake]
      simp
    | some e =>
      obtain ⟨he, hts', _, _⟩ := next_some_inv hn
      have hadv : advance (n + 1) ts = advance n ts' := by
        show advance n ts.next.2 = advance n ts'
        rw [hn]
      have htake : ts.takeAll (n + 1) = e :: ts'.takeAll n := by
        show (match ts.next with
          | (none, _) => []
          | (some e, ts') => e :: takeAll n ts') = e :: ts'.takeAll n
        rw [hn]
      have hstep' : ts'.step = st := by rw [hts']; exact hstep
      rw [hadv, htake, ih ts' hstep']
      have hcur' : ts'.cur = ts.cur + st := by rw [hts', he, hstep]
      rw [hcur']
      simp only [List.length_cons]
      push_cast
      ring

/-- Every item produced in exclusive mode is strictly below the fixed
upper bound `e`. -/
theorem takeAll_excl_lt_end (e : Epoch) :
    ∀ (fuel : Nat) (ts : TimeSeries), ts.incl = false → ts.«end» = e →
      ∀ x ∈ ts.takeAll fuel, x < e := by
  intro fuel
  induction fuel with
  | zero =>
    intro ts _ _ x hx
    simp [takeAll] at hx
  | succ fuel ih =>
    intro ts hincl hend x hx
    rcases hn : ts.next with ⟨o, ts'⟩
    cases o with
    | none =>
      have : ts.takeAll (fuel + 1) = [] := by
        show (match ts.next with
          | (none, _) => []
          | (some e, ts') => e :: takeAll fuel ts') = []
        rw [hn]
      rw [this] at hx
      exact absurd hx (by simp)
    | some a =>
      obtain ⟨_, hts', hlt, _⟩ := next_some_inv hn
      have : ts.takeAll (fuel + 1) = a :: ts'.takeAll fuel := by
        show (match ts.next with
          | (none, _) => []
          | (some e, ts') => e :: takeAll fuel ts') = a :: ts'.takeAll fuel
        rw [hn]
      rw [this] at hx
      rcases List.mem_cons.mp hx with hx | hx
      · rw [hx, ← hend]
        exact hlt hincl
      · refine ih ts' ?_ ?_ x hx
        · rw [hts']; exact hincl
        · rw [hts']; exact hend

/-- The arithmetic grid `c + step, c + 2*step, ..., c + m*step`:
the sequence an inclusive series with `end = cur + m*step` produces. -/
def gridList (c : Epoch) (st : Duration) : Nat → List Epoch
  | 0 => []
  | m + 1 => (c + st) :: gridList (c + st) st m

/-- With a positive step and `end` exactly `m` steps past the cursor, an
inclusive series produces exactly the arithmetic grid of `m` items, for
any fuel of at least `m` calls. -/
theorem takeAll_incl_eq_gridList (st : Duration) (hst : 0 < st) :
    ∀ (m fuel : Nat), m ≤ fuel → ∀ ts : TimeSeries, ts.incl = true →
      ts.step = st → ts.«end» = ts.cur + (m : Int) * st →
      ts.takeAll fuel = gridList ts.cur st m := by
  intro m
  induction m with
  | zero =>
    intro fuel _ ts hincl hstep hend
    have hstop : ts.next = (none, ts) := by
      refine next_incl_stop hincl ?_
      rw [hend, hstep]
      simpa using hst
    cases fuel with
    | zero => rfl
    | succ fuel =>
      show (match ts.next with
        | (none, _) => []
        | (some e, ts') => e :: takeAll fuel ts') = gridList ts.cur st 0
      rw [hstop]
      rfl
  | succ m ih =>
    intro fuel hfuel ts hincl hstep hend
    cases fuel with
    | zero => exact absurd hfuel (by simp)
    | succ fuel =>
      have hone : (1 : Int) ≤ ((m + 1 : Nat) : Int) := by
        exact_mod_cast Nat.succ_le_succ (Nat.zero_le m)
      have hcand : ts.cur + ts.step ≤ ts.«end» := by
        rw [hend, hstep]
        exact add_le_add_left (le_mul_of_one_le_left hst.le hone) ts.cur
      have hsome := next_incl_le hincl hcand
      have htake : ts.takeAll (fuel + 1) =
          (ts.cur + ts.step) :: takeAll fuel { ts with cur := ts.cur + ts.step } := by
        show (match ts.next with
          | (none, _) => []
          | (some e, ts') => e :: takeAll fuel ts') = _
        rw [hsome]
      have hend' : ({ ts with cur := ts.cur + ts.step } : TimeSeries).«end» =
          ({ ts with cur := ts.cur + ts.step } : TimeSeries).cur + (m : Int) * st := by
        show ts.«end» = ts.cur + ts.step + (m : Int) * st
        rw [hend, hstep]
        push_cast
        ring
      have := ih fuel (Nat.succ_le_succ_iff.mp hfuel)
        { ts with cur := ts.cur + ts.step } hincl hstep hend'
      rw [htake, this, hstep]
      rfl

/-- Last element of a nonempty arithmetic grid. -/
theorem gridList_getLast? (st : Duration) :
    ∀ (m : Nat) (c : Epoch),
      (gridList c st (m + 1)).getLast? = some (c + ((m : Int) + 1) * st) := by
  intro m
  induction m with
  | zero =>
    intro c
    show (gridList c st 1).getLast? = _
    have : gridList c st 1 = [c + st] := rfl
    rw [this]
    simp
  | succ m ih =>
    intro c
    have hunfold : gridList c st (m + 2) = (c + st) :: gridList (c + st) st (m + 1) := rfl
    have hcons : gridList (c + st) st (m + 1) =
        (c + st + st) :: gridList (c + st + st) st m := rfl
    rw [hunfold]
    rw [show ((c + st) :: gridList (c + st) st (m + 1)).getLast? =
        (gridList (c + st) st (m + 1)).getLast? from by rw [hcons]; rfl]
    rw [ih (c + st)]
    congr 1
    push_cast
    ring

/-! ## Claim theorems -/

/-- Claim C2: for `exclusive(start, end, step)` with `start < end` and a
positive step, the first value returned by `next()` equals `start`, and
no value ever returned by `next()` equals `end`. -/
theorem exclusive_first_is_start_end_never_produced (s e : Epoch) (st : Duration)
    (hse : s < e) (hst : 0 < st) :
    (exclusive s e st).next.1 = some s ∧
      ∀ fuel : Nat, e ∉ (exclusive s e st).takeAll fuel := by
  constructor
  · have hcur : (exclusive s e st).cur + (exclusive s e st).step = s := by
      show s - st + st = s
      exact Int.sub_add_cancel s st
    have h := @next_excl_lt (exclusive s e st) rfl (by rw [hcur]; exact hse)
    rw [h]
    show some ((exclusive s e st).cur + (exclusive s e st).step) = some s
    rw [hcur]
  · intro fuel hmem
    exact absurd (takeAll_excl_lt_end e fuel (exclusive s e st) rfl rfl e hmem)
      (lt_irrefl e)

theorem exclusive_first_is_start_end_never_produced_witness :
    (exclusive 0 10 2).next.1 = some 0 ∧ (10 : Epoch) ∉ (exclusive 0 10 2).takeAll 7 :=
  ⟨(exclusive_first_is_start_end_never_produced 0 10 2 (by decide) (by decide)).1,
    (exclusive_first_is_start_end_never_produced 0 10 2 (by decide) (by decide)).2 7⟩

/-- Claim C3 (counterexample): with `start = 0`, `end = start + 2*step`
and `step = -1` (a non-zero step pointing from `start` toward `end`),
inclusive forward iteration is empty: its very first call returns `None`,
so no last produced value equals `end`. -/
theorem inclusive_exact_multiple_negative_step_no_last :
    ((inclusive 0 (-2) (-1)).takeAll 10).getLast? = none ∧
      (inclusive 0 (-2) (-1)).next.1 = none ∧
      (0 : Int) + (2 : Int) * (-1) = -2 := by
  decide

/-- Claim C3 (amended: positive step): for `inclusive(start, end, step)`
with `end = start + n*step` exactly and a positive step, the last value
of forward iteration (given fuel for at least `n + 1` calls) is `end`. -/
theorem inclusive_last_is_end (s : Epoch) (st : Duration) (n fuel : Nat)
    (hst : 0 < st) (hfuel : n + 1 ≤ fuel) :
    ((inclusive s (s + (n : Int) * st) st).takeAll fuel).getLast? =
      some (s + (n : Int) * st) := by
  have hend : (inclusive s (s + (n : Int) * st) st).«end» =
      (inclusive s (s + (n : Int) * st) st).cur + ((n + 1 : Nat) : Int) * st := by
    show s + (n : Int) * st = s - st + ((n + 1 : Nat) : Int) * st
    push_cast
    ring
  have h := takeAll_incl_eq_gridList st hst (n + 1) fuel hfuel
    (inclusive s (s + (n : Int) * st) st) rfl rfl hend
  rw [h]
  have hcur : (inclusive s (s + (n : Int) * st) st).cur = s - st := rfl
  rw [hcur, gridList_getLast? st n (s - st)]
  congr 1
  ring

theorem inclusive_last_is_end_witness :
    ((inclusive 0 (0 + ((3 : Nat) : Int) * 2) 2).takeAll 10).getLast? =
      some (0 + ((3 : Nat) : Int) * 2) :=
  inclusive_last_is_end 0 2 3 10 (by decide) (by decide)

/-- Claim C4: from either constructor, after any number of `next()`
calls the cursor equals `start + k*step` with `k = produced - 1 ≥ -1`
(one step per produced item, so no drift), and any two consecutively
produced values differ by exactly `step`. -/
theorem cursor_affine_and_consecutive_diff (s e : Epoch) (st : Duration)
    (ts0 : TimeSeries)
    (h0 : ts0 = exclusive s e st ∨ ts0 = inclusive s e st) :
    (∀ n : Nat, (advance n ts0).cur =
        s + (((ts0.takeAll n).length : Int) - 1) * st ∧
        (-1 : Int) ≤ ((ts0.takeAll n).length : Int) - 1) ∧
      ∀ (t t' t'' : TimeSeries) (v w : Epoch),
        t.next = (some v, t') → t'.next = (some w, t'') → w - v = t.step := by
  constructor
  · intro n
    have hstep : ts0.step = st := by rcases h0 with h | h <;> rw [h] <;> rfl
    have hcur : ts0.cur = s - st := by rcases h0 with h | h <;> rw [h] <;> rfl
    refine ⟨?_, by omega⟩
    rw [advance_cur_takeAll st n ts0 hstep, hcur]
    ring
  · intro t t' t'' v w hv hw
    obtain ⟨hv1, hv2, _, _⟩ := next_some_inv hv
    obtain ⟨hw1, _, _, _⟩ := next_some_inv hw
    subst hv2
    have h3 : w = v + t.step := hw1
    rw [h3]
    ring

theorem cursor_affine_and_consecutive_diff_witness :
    (advance 3 (exclusive 0 10 2)).cur =
        0 + ((((exclusive 0 10 2).takeAll 3).length : Int) - 1) * 2 ∧
      (-1 : Int) ≤ (((exclusive 0 10 2).takeAll 3).length : Int) - 1 :=
  (cursor_affine_and_consecutive_diff 0 10 2 (exclusive 0 10 2) (Or.inl rfl)).1 3

/-- Claim C6 (counterexample): with `start = 0 < end = 10` and
`step = -1` (sign opposite to the direction of `end - start`), the very
first `next()` call returns `Some(start)`, not `None`: the forward
sequence is not empty (it is in fact a runaway descending sequence). -/
theorem negative_step_not_empty :
    (0 : Int) < 10 ∧ (-1 : Int) < 0 ∧ (exclusive 0 10 (-1)).next.1 = some 0 := by
  decide

/-- Claim C6 (amended: the opposite-sign configuration with a positive
step, i.e. `end < start`): the very first `next()` call returns `None`
in both modes. -/
theorem wrong_sign_positive_step_empty (s e : Epoch) (st : Duration)
    (hst : 0 < st) (hes : e < s) :
    (exclusive s e st).next.1 = none ∧ (inclusive s e st).next.1 = none := by
  constructor
  · have hge : (exclusive s e st).«end» ≤
        (exclusive s e st).cur + (exclusive s e st).step := by
      show e ≤ s - st + st
      rw [Int.sub_add_cancel]
      exact hes.le
    rw [next_excl_stop rfl hge]
  · have hgt : (inclusive s e st).«end» <
        (inclusive s e st).cur + (inclusive s e st).step := by
      show e < s - st + st
      rw [Int.sub_add_cancel]
      exact hes
    rw [next_incl_stop rfl hgt]

theorem wrong_sign_positive_step_empty_witness :
    (exclusive 10 0 1).next.1 = none ∧ (inclusive 10 0 1).next.1 = none :=
  wrong_sign_positive_step_empty 10 0 1 (by decide) (by decide)

/-- Claim C7: `next_back()` returns `None` exactly when
`cur - step < start`, otherwise `Some(cur - step)`; it never mutates the
state, and no produced value is below `start`. -/
theorem next_back_pure_and_bounded (ts : TimeSeries) :
    ts.nextBack.2 = ts ∧
      (ts.nextBack.1 = none ↔ ts.cur - ts.step < ts.start) ∧
      ∀ e : Epoch, ts.nextBack.1 = some e → e = ts.cur - ts.step ∧ ts.start ≤ e := by
  unfold nextBack
  by_cases h : ts.cur - ts.step < ts.start
  · simp [h]
  · simp [h]
    exact not_lt.mp h

theorem next_back_pure_and_bounded_witness :
    (exclusive 0 10 2).nextBack.2 = exclusive 0 10 2 ∧
      (exclusive 0 10 2).nextBack.1 = none :=
  ⟨(next_back_pure_and_bounded (exclusive 0 10 2)).1,
    ((next_back_pure_and_bounded (exclusive 0 10 2)).2.1).mpr (by decide)⟩

/-- Claim C8: when `next()` returns `None` the state is unchanged, and
therefore every subsequent `next()` call also returns `None`. -/
theorem exhausted_frame (ts : TimeSeries) (h : ts.next.1 = none) :
    ts.next.2 = ts ∧ ∀ n : Nat, (advance n ts).next.1 = none :=
  ⟨next_none_fix h, fun n => by rw [advance_of_next_none h n]; exact h⟩

theorem exhausted_frame_witness :
    (exclusive 0 0 1).next.2 = exclusive 0 0 1 ∧
      (advance 5 (exclusive 0 0 1)).next.1 = none :=
  ⟨(exhausted_frame (exclusive 0 0 1) (by decide)).1,
    (exhausted_frame (exclusive 0 0 1) (by decide)).2 5⟩

/-- Claim C9: `size_hint()` is the pair `(len(), Some(len() + 1))`. -/
theorem size_hint_exact_plus_one (ts : TimeSeries) :
    ts.sizeHint = (ts.len, some (ts.len + 1)) := rfl

theorem size_hint_exact_plus_one_witness :
    (exclusive 0 12 2).sizeHint =
      ((exclusive 0 12 2).len, some ((exclusive 0 12 2).len + 1)) :=
  size_hint_exact_plus_one (exclusive 0 12 2)

/-- Claim C10 (counterexample): with `start = end = 0` and `step = -1`
(a step of positive magnitude), the first `next()` call on the inclusive
series returns `Some(0)` but the second returns `Some(-1)`, not `None`. -/
theorem equal_bounds_negative_step_second_some :
    (inclusive 0 0 (-1)).next.1 = some 0 ∧
      (inclusive 0 0 (-1)).next.2.next.1 = some (-1) := by
  decide

/-- Claim C10 (amended: strictly positive step): with `start = end = s`,
`exclusive(s, s, step)` is empty from the first call, while
`inclusive(s, s, step)` yields exactly one element, `s`. -/
theorem equal_bounds_mode_difference (s : Epoch) (st : Duration) (hst : 0 < st) :
    (exclusive s s st).next.1 = none ∧
      (inclusive s s st).next.1 = some s ∧
      (inclusive s s st).next.2.next.1 = none := by
  have hle : (inclusive s s st).cur + (inclusive s s st).step ≤
      (inclusive s s st).«end» := by
    show s - st + st ≤ s
    rw [Int.sub_add_cancel]
  refine ⟨?_, ?_, ?_⟩
  · have hge : (exclusive s s st).«end» ≤
        (exclusive s s st).cur + (exclusive s s st).step := by
      show s ≤ s - st + st
      rw [Int.sub_add_cancel]
    rw [next_excl_stop rfl hge]
  · rw [next_incl_le rfl hle]
    show some (s - st + st) = some s
    rw [Int.sub_add_cancel]
  · rw [next_incl_le rfl hle]
    show (TimeSeries.mk s s st (s - st + st) true).next.1 = none
    have hgt : (TimeSeries.mk s s st (s - st + st) true).«end» <
        (TimeSeries.mk s s st (s - st + st) true).cur +
          (TimeSeries.mk s s st (s - st + st) true).step := by
      show s < s - st + st + st
      rw [Int.sub_add_cancel]
      exact lt_add_of_pos_right s hst
    rw [next_incl_stop rfl hgt]

theorem equal_bounds_mode_difference_witness :
    (exclusive 7 7 3).next.1 = none ∧ (inclusive 7 7 3).next.1 = some 7 ∧
      (inclusive 7 7 3).next.2.next.1 = none :=
  equal_bounds_mode_difference 7 3 (by decide)

/-- Claim C1 (code evaluated at the failing input): for
`inclusive(0, 1 s, 1 s)` (step positive, pointing from start toward end,
`end - start` an exact multiple of `step`), `len()` reports `1`, yet
exhaustive forward traversal produces the 2 elements `[0 ns, 10^9 ns]`
and is exhausted after them: the reported count and the enumerated count
disagree. -/
theorem inclusive_len_off_by_one :
    (inclusive 0 1000000000 1000000000).len = 1 ∧
      (inclusive 0 1000000000 1000000000).takeAll 5 = [0, 1000000000] ∧
      (advance 2 (inclusive 0 1000000000 1000000000)).next.1 = none := by
  refine ⟨?_, by decide, by decide⟩
  norm_num [len, inclusive, Hifitime.Duration.in_seconds, usizeMaxAsF64, usizeMax,
    Int.toNat_ofNat]

end TimeSeries

end Hifitime
